import Mathlib

/-!
Shallow embedding of `robot_designer_plugin/export/sdf/generic/sdf_tree.py`
(the SDF kinematic-tree import/export core).

The pyxb document object model stores every XML sub-element as a python
list (plural content); we mirror that with `List` fields.  Links and
joints are identified by their position in the owning model's flat
`link` / `joint` lists, which mirrors python object identity for the
dictionaries `connected_joints` / `connected_links` keyed on those
objects.  Calls to the imported `export_logger` are effect-free and are
not modelled.  The bare name `logger`, used in `SDFTree.parse` at lines
91, 105, 119–120 and 140–141, is *unbound* in the module (line 35
imports only `export_logger`), so those statements raise `NameError`;
this is modelled faithfully: `parse` is the shipped function, which
never returns, and `parse_rest` is the translation of the dead code
below the first crash point.  File I/O (the `open`/`write` calls) is
outside the embedded state.
-/

/-- Inertia tensor entries (`link.inertial[0].inertia[0]`); each entry is a
plural pyxb element that values get appended to. -/
structure Inertia where
  ixx : List Rat
  iyy : List Rat
  izz : List Rat
  ixy : List Rat
  ixz : List Rat
  iyz : List Rat
deriving DecidableEq

/-- Inertial block of a link (`link.inertial[0]`). -/
structure Inertial where
  mass : List String
  pose : List String
  inertia : List Inertia
deriving DecidableEq

/-- A link element: `sdf_model_dom.link()`.  Only the fields the claims
touch are modelled (visual/collision/sensor sub-elements are never read
by the tree logic). -/
structure Link where
  name : String
  inertial : List Inertial
deriving DecidableEq

/-- A joint element: `sdf_model_dom.joint()`.  `parent` and `child` are
plural string elements (the code reads `joint.parent[0]` and appends to
them); `axis` is a plural element whose content the tree logic never
inspects, modelled as `Unit`. -/
structure Joint where
  name : String
  parent : List String
  child : List String
  axis : List Unit
deriving DecidableEq

/-- A model element (`root.model[0]`, called `robot` in the source). -/
structure Model where
  name : String
  pose : List String
  link : List Link
  joint : List Joint
deriving DecidableEq

/-- The root `sdf` element. -/
structure Sdf where
  model : List Model
deriving DecidableEq

instance : Inhabited Link := ⟨⟨"", []⟩⟩
instance : Inhabited Joint := ⟨⟨"", [], [], []⟩⟩

/-- Python exceptions that can escape the embedded code, plus fuel
exhaustion standing for unbounded recursion of `SDFTree.build` (the
python recursion carries no bound at all; a computation that is
`outOfFuel` for every fuel corresponds to a non-terminating run). -/
inductive Err where
  /-- `pyxb.ContentNondeterminismExceededError` re-raised at
  `sdf_tree.py:92`; carries `e.instance.name`. -/
  | malformedDocument (name : String)
  /-- python `IndexError` (e.g. `root.model[0]` or `joint.parent[0]` on
  an empty plural element). -/
  | indexError
  /-- python `KeyError` (missing key in `connectedLinks`). -/
  | keyError
  /-- python `NameError`: the bare name `logger` is unbound in the
  module — `sdf_tree.py:35` imports only `export_logger` — so
  `logger.error(...)` at line 91 and `logger.debug(...)` at line 105
  raise `NameError` when executed. -/
  | nameError
  /-- recursion bound exhausted. -/
  | outOfFuel
deriving DecidableEq

/-- `joint.parent[0]` (the code only reads index 0; `parse_rest` guards
that the element is non-empty). -/
def jparent (j : Joint) : String := j.parent.headD ""

/-- `joint.child[0]`. -/
def jchild (j : Joint) : String := j.child.headD ""

/-- The link object at index `li` of the model's flat link list. -/
def lk (m : Model) (li : Nat) : Link := m.link.getD li default

/-- `lk m li |>.name`. -/
def nm (m : Model) (li : Nat) : String := (lk m li).name

/-- The joint object at index `ji` of the model's flat joint list. -/
def jt (m : Model) (ji : Nat) : Joint := m.joint.getD ji default

/-- `sdf_tree.py:123`: `connected_joints[link] = [joint for joint in
robot.joint if link.name == joint.parent[0]]`, as joint indices in
document order. -/
def connected_joints (m : Model) (li : Nat) : List Nat :=
  (List.range m.joint.length).filter fun ji => decide (nm m li = jparent (jt m ji))

/-- `sdf_tree.py:127`: `connected_links = {joint: link for link in
robot.link for joint in robot.joint if link.name == joint.child[0]}`.
The outer comprehension loop runs over links in document order and later
entries overwrite earlier ones, so each joint maps to the *last* link
whose name equals the joint's child name; a joint whose child name
matches no link is absent from the dictionary (`none`). -/
def connected_links (m : Model) (ji : Nat) : Option Nat :=
  ((List.range m.link.length).filter fun li => decide (nm m li = jchild (jt m ji))).getLast?

/-- `sdf_tree.py:131`: names of links that are the child of a joint
whose parent is not the `"world"` sentinel (one entry per matching
(link, joint) pair, as in the comprehension). -/
def child_links (m : Model) : List String :=
  m.link.flatMap fun l =>
    (m.joint.filter fun j => decide (l.name = jchild j ∧ jparent j ≠ "world")).map
      fun _ => l.name

/-- `sdf_tree.py:135`: `root_links = [link for link in robot.link if
link.name not in child_links]`, as link indices. -/
def root_links (m : Model) : List Nat :=
  (List.range m.link.length).filter fun li => decide (nm m li ∉ child_links m)

/-- `sdf_tree.py:138`: `world_joints = {link: joint for link in
root_links for joint in robot.joint if link.name == joint.child[0]}`;
for a fixed root link the inner loop's last matching joint wins. -/
def world_joints (m : Model) (li : Nat) : Option Nat :=
  ((List.range m.joint.length).filter fun ji => decide (nm m li = jchild (jt m ji))).getLast?

/-- One `SDFTree` node as produced by import: the link, the joint that
connects it to its parent (if any) and the ordered child subtrees. -/
inductive KTree where
  | mk (link : Nat) (joint : Option Nat) (children : List KTree)

/-- The node's link index. -/
def KTree.link : KTree → Nat
  | .mk l _ _ => l

/-- The node's joint index (if any). -/
def KTree.joint : KTree → Option Nat
  | .mk _ j _ => j

/-- The node's child subtrees. -/
def KTree.children : KTree → List KTree
  | .mk _ _ c => c

/-- Sequences a list of child-subtree results, propagating the leftmost
error, as the python `for` loop in `build` does. -/
def seqTrees : List (Except Err KTree) → Except Err (List KTree)
  | [] => .ok []
  | x :: xs =>
    match x with
    | .error e => .error e
    | .ok t =>
      match seqTrees xs with
      | .error e => .error e
      | .ok ts => .ok (t :: ts)

/-- `SDFTree.build` (`sdf_tree.py:173`): sets the node's joint and link,
then recurses over `connectedJoints[link]`, looking each joint up in
`connectedLinks` (a missing key raises `KeyError`).  The python
recursion is unbounded — the `depth` parameter is passed but never
inspected — so the embedding spends one unit of fuel per call. -/
def build (m : Model) : Nat → Nat → Option Nat → Except Err KTree
  | 0, _, _ => .error .outOfFuel
  | fuel + 1, li, jo =>
    match seqTrees ((connected_joints m li).map fun ji =>
        match connected_links m ji with
        | none => .error .keyError
        | some mi => build m fuel mi (some ji)) with
    | .error e => .error e
    | .ok ts => .ok (.mk li jo ts)

/-- Splits a character sequence on spaces, dropping empty words. -/
def wordsAux : List Char → List Char → List (List Char)
  | [], acc => if acc.isEmpty then [] else [acc.reverse]
  | c :: rest, acc =>
    if c = ' ' then
      if acc.isEmpty then wordsAux rest [] else acc.reverse :: wordsAux rest []
    else wordsAux rest (c :: acc)

/-- Reads a decimal numeral. -/
def natOfCharsAux : List Char → Nat → Option Nat
  | [], acc => some acc
  | c :: rest, acc =>
    if c.isDigit then natOfCharsAux rest (acc * 10 + (c.toNat - 48)) else none

/-- Reads an optionally negated decimal numeral. -/
def intOfChars : List Char → Option Int
  | [] => none
  | '-' :: rest =>
    match rest with
    | [] => none
    | _ => (natOfCharsAux rest 0).map fun n => -(n : Int)
  | cs => (natOfCharsAux cs 0).map fun n => (n : Int)

/-- Modelled from the spec: `helpers.string_to_list` (the module
`export/sdf/generic/helpers.py` is not under `src/`).  A pose decodes as
a whitespace-separated list of six numbers — a translation and a
rotation (§3, §6 of the spec) — and fails to decode otherwise. -/
def string_to_list (s : String) : Option (List Int) := do
  let l ← (wordsAux s.toList []).mapM intOfChars
  if l.length = 6 then some l else none

/-- The input of `parse`, with the XML decoding step modelled from the
spec: `sdf_model_dom.CreateFromDocument` (pyxb-generated, not under
`src/`) either yields the document or raises
`ContentNondeterminismExceededError` carrying the offending element's
name. -/
inductive Source where
  | decoded (sdf : Sdf)
  | nondet (name : String)

/-- The tuple `SDFTree.parse` is written to return at `sdf_tree.py:171`
— reached only in the dead code modelled by `parse_rest` — restricted
to the claim-relevant components: model name, global location and
rotation, root links and the kinematic-chain forest (muscles and the
controller cache are never consumed by the tree logic and are not
modelled). -/
structure ParseResult where
  name : String
  location : List Int
  rotation : List Int
  rootLinks : List Nat
  chains : List KTree

/-- `SDFTree.parse` (`sdf_tree.py:73`–105) as shipped.  The bare name
`logger` is unbound in the module, so execution never gets past the
first `logger` statement: on a decodable document, `root.model[0]`
(line 93) raises `IndexError` when no model element exists, the pose
block (lines 95–101) runs and binds only local variables, and
`logger.debug('Muscle Path:' + muscles)` at line 105 then raises
`NameError` unconditionally — the cross-reference maps, root
classification and tree building below are dead code (`parse_rest`).
On an undecodable source the `except` handler's first statement
`logger.error(...)` at line 91 raises `NameError`, making the `raise e`
at line 92 unreachable.  `parse` therefore never returns a result. -/
def parse (src : Source) : Except Err ParseResult :=
  match src with
  | .nondet _ => .error .nameError
  | .decoded root =>
    match root.model.head? with
    | none => .error .indexError
    | some _ => .error .nameError

/-- The remainder of `SDFTree.parse` below the crash point, as evidently
intended — the same translation with the unbound-`logger` statements
(lines 91, 105, 119–120, 140–141) read as the logging they were meant
to be.  It decodes the source (re-raising the nondeterminism error,
lines 88–92), takes `root.model[0]`, reads the global pose with
bare-`except` defaults (lines 95–101), builds the cross-reference maps
and root classification (lines 123–138), and builds one kinematic chain
per root link, passing the root's `world_joints` entry when present
(the pyxb joint object is truthy) and `None` on `KeyError` (lines
156–166).  The comprehensions on lines 123–138 read `joint.parent[0]` /
`joint.child[0]` for every joint as soon as the link list is non-empty,
raising `IndexError` if such an element is empty.  In the shipped
module this code is unreachable (see `parse`); it is modelled to state
what the algorithm the spec describes does. -/
def parse_rest (src : Source) (fuel : Nat) : Except Err ParseResult :=
  match src with
  | .nondet n => .error (.malformedDocument n)
  | .decoded root =>
    match root.model.head? with
    | none => .error .indexError
    | some robot =>
      let pose := match robot.pose.head? with
        | none => ([0, 0, 0], [0, 0, 0])
        | some s =>
          match string_to_list s with
          | none => ([0, 0, 0], [0, 0, 0])
          | some l => (l.take 3, l.drop 3)
      if robot.link.isEmpty ∨ robot.joint.all fun j => !j.parent.isEmpty && !j.child.isEmpty then
        match seqTrees ((root_links robot).map fun li =>
            build robot fuel li (world_joints robot li)) with
        | .error e => .error e
        | .ok chains => .ok ⟨robot.name, pose.1, pose.2, root_links robot, chains⟩
      else .error .indexError

mutual
/-- Number of tree nodes of `t` whose link is `x`. -/
def cntT (x : Nat) : KTree → Nat
  | .mk l _ cs => (if l = x then 1 else 0) + cntL x cs
/-- Number of nodes across a forest whose link is `x`. -/
def cntL (x : Nat) : List KTree → Nat
  | [] => 0
  | t :: ts => cntT x t + cntL x ts
end

/-! ### Export side: `create_empty`, `set_defaults`, `add`, `write` -/

/-- `SDFTree.set_defaults` (`sdf_tree.py:451`–494).  The assignments
`joint.child = ''` and `joint.parent = ''` replace the plural element's
content with the (empty) sequence of values in the assigned iterable, so
both elements become empty — the subsequent `joint.child.append(...)` in
`write` then produces a single-entry element.  A missing `axis`, a
missing `inertial` block and a missing `inertia` block are synthesized;
the `mass`/`pose`/inertia-entry defaults are then appended
unconditionally (lines 487–494). -/
def set_defaults (j : Joint) (l : Link) : Joint × Link :=
  let j1 : Joint := { j with child := [], parent := [] }
  let j2 : Joint := if j1.axis.isEmpty then { j1 with axis := [()] } else j1
  let l1 : Link := if l.inertial.isEmpty then { l with inertial := [⟨[], [], []⟩] } else l
  let i0 : Inertial := l1.inertial.headD ⟨[], [], []⟩
  let i1 : Inertial := if i0.inertia.isEmpty then { i0 with inertia := [⟨[], [], [], [], [], []⟩] } else i0
  let t0 : Inertia := i1.inertia.headD ⟨[], [], [], [], [], []⟩
  let t1 : Inertia :=
    ⟨t0.ixx ++ [1], t0.iyy ++ [1], t0.izz ++ [1], t0.ixy ++ [0], t0.ixz ++ [0], t0.iyz ++ [0]⟩
  let i2 : Inertial :=
    { mass := i1.mass ++ ["1.0"], pose := i1.pose ++ ["0 0 0 0 0 0"],
      inertia := t1 :: i1.inertia.tail }
  (j2, { l1 with inertial := i2 :: l1.inertial.tail })

/-- State of an export in progress: the document under construction and
the cross-reference dictionaries shared by every `SDFTree` node.
`connectedLinks` (joint → its paired link, a python dict keyed on joint
objects) is modelled as the insertion-ordered list of
(joint index, link index) pairs; `connectedJoints` (link → joints whose
parent it is) is keyed here by the only datum `write` reads from the
key, the link's name. -/
structure ExportState where
  robotName : String
  links : List Link
  joints : List Joint
  connectedLinks : List (Nat × Nat)
  connectedJoints : List (String × List Nat)
deriving DecidableEq

/-- `SDFTree.create_empty` (`sdf_tree.py:193`): a fresh sdf document
with one named model and empty cross-reference dictionaries.  The root
node's `tree.link` is created but never appended to `robot.link`, so it
is not part of the document. -/
def create_empty (name : String) : ExportState := ⟨name, [], [], [], []⟩

/-- `SDFTree.add` (`sdf_tree.py:273`): creates a fresh joint+link pair,
appends them to the document's flat lists, applies `set_defaults`, and
records `connectedLinks[tree.joint] = tree.link`.  The block that would
record the new joint under `connectedJoints[self.link]` (lines 291–294
and 300–313) is commented out in the source, so `connectedJoints` is
never touched and the node `add` was called on plays no part in the
resulting state. -/
def add (s : ExportState) : ExportState :=
  let jl := set_defaults ⟨"", [], [], []⟩ ⟨"", []⟩
  { s with
    links := s.links ++ [jl.2]
    joints := s.joints ++ [jl.1]
    connectedLinks := s.connectedLinks ++ [(s.joints.length, s.links.length)] }

/-- The serializer walk of `SDFTree.write` (`sdf_tree.py:234`–241): for
each `connectedLinks` entry append the link's name to the joint's
`child` element; then, for each `connectedJoints` entry, append the
key link's name to each listed joint's `parent` element. -/
def write_walk (s : ExportState) : ExportState :=
  let js1 := s.connectedLinks.foldl
    (fun js p =>
      js.set p.1
        (let j := js.getD p.1 default
         { j with child := j.child ++ [(s.links.getD p.2 default).name] }))
    s.joints
  let js2 := s.connectedJoints.foldl
    (fun js p =>
      p.2.foldl
        (fun js ji =>
          js.set ji
            (let j := js.getD ji default
             { j with parent := j.parent ++ [p.1] }))
        js)
    js1
  { s with joints := js2 }

/-- `SDFTree.write` up to (and excluding) the file output
(`sdf_tree.py:234`–252): the serializer walk followed by the orphan
filter `self.sdf.model[0].joint = [j for j in self.sdf.model[0].joint if
j.parent]` — a python list is truthy exactly when non-empty. -/
def write (s : ExportState) : ExportState :=
  let s1 := write_walk s
  { s1 with joints := s1.joints.filter fun j => !j.parent.isEmpty }

/-! ### Render / re-parse (spec-modelled)

`SDFTree.write` renders through pyxb's `toDOM().toprettyxml()` and
`SDFTree.parse` decodes through the pyxb-generated
`sdf_model_dom.CreateFromDocument`; neither is under `src/`.  Modelled
from the spec (§4.1 render, §8 round-trip): rendering serializes the
document to a flat element stream and decoding reads it back exactly. -/

/-- One element of the rendered stream. -/
inductive Tok where
  | ts (v : String)
  | tn (v : Nat)
  | tq (v : Rat)
deriving DecidableEq

/-- Modelled from the spec: renders a plural element (a list) as its
length followed by the rendered items. -/
def encList (f : α → List Tok) (xs : List α) : List Tok :=
  .tn xs.length :: xs.flatMap f

/-- Renders a string value. -/
def encStr (s : String) : List Tok := [.ts s]

/-- Renders a numeric value. -/
def encRat (q : Rat) : List Tok := [.tq q]

/-- Renders a content-free element. -/
def encUnit (_ : Unit) : List Tok := []

/-- Renders an inertia tensor element. -/
def encInertia (t : Inertia) : List Tok :=
  encList encRat t.ixx ++ encList encRat t.iyy ++ encList encRat t.izz ++
  encList encRat t.ixy ++ encList encRat t.ixz ++ encList encRat t.iyz

/-- Renders an inertial block. -/
def encInertial (i : Inertial) : List Tok :=
  encList encStr i.mass ++ encList encStr i.pose ++ encList encInertia i.inertia

/-- Renders a link element. -/
def encLink (l : Link) : List Tok :=
  encStr l.name ++ encList encInertial l.inertial

/-- Renders a joint element. -/
def encJoint (j : Joint) : List Tok :=
  encStr j.name ++ encList encStr j.parent ++ encList encStr j.child ++
  encList encUnit j.axis

/-- Renders a model element. -/
def encModel (m : Model) : List Tok :=
  encStr m.name ++ encList encStr m.pose ++ encList encLink m.link ++
  encList encJoint m.joint

/-- Modelled from the spec: §4.1's render operation, serializing the
whole document. -/
def render (s : Sdf) : List Tok := encList encModel s.model

/-- Reads back a string value. -/
def decStr : List Tok → Option (String × List Tok)
  | .ts s :: r => some (s, r)
  | _ => none

/-- Reads back a length. -/
def decNat : List Tok → Option (Nat × List Tok)
  | .tn k :: r => some (k, r)
  | _ => none

/-- Reads back a numeric value. -/
def decRat : List Tok → Option (Rat × List Tok)
  | .tq v :: r => some (v, r)
  | _ => none

/-- Reads back a content-free element. -/
def decUnit (r : List Tok) : Option (Unit × List Tok) := some ((), r)

/-- Reads back `k` successive items. -/
def decTimes (g : List Tok → Option (α × List Tok)) : Nat → List Tok → Option (List α × List Tok)
  | 0, r => some ([], r)
  | k + 1, r =>
    match g r with
    | none => none
    | some (x, r1) =>
      match decTimes g k r1 with
      | none => none
      | some (xs, r2) => some (x :: xs, r2)

/-- Reads back a plural element. -/
def decList (g : List Tok → Option (α × List Tok)) (r : List Tok) :
    Option (List α × List Tok) :=
  match decNat r with
  | none => none
  | some (k, r1) => decTimes g k r1

/-- Reads back an inertia tensor element. -/
def decInertia (r : List Tok) : Option (Inertia × List Tok) := do
  let (xx, r) ← decList decRat r
  let (yy, r) ← decList decRat r
  let (zz, r) ← decList decRat r
  let (xy, r) ← decList decRat r
  let (xz, r) ← decList decRat r
  let (yz, r) ← decList decRat r
  some (⟨xx, yy, zz, xy, xz, yz⟩, r)

/-- Reads back an inertial block. -/
def decInertial (r : List Tok) : Option (Inertial × List Tok) := do
  let (ms, r) ← decList decStr r
  let (ps, r) ← decList decStr r
  let (ia, r) ← decList decInertia r
  some (⟨ms, ps, ia⟩, r)

/-- Reads back a link element. -/
def decLink (r : List Tok) : Option (Link × List Tok) := do
  let (n, r) ← decStr r
  let (i, r) ← decList decInertial r
  some (⟨n, i⟩, r)

/-- Reads back a joint element. -/
def decJoint (r : List Tok) : Option (Joint × List Tok) := do
  let (n, r) ← decStr r
  let (p, r) ← decList decStr r
  let (c, r) ← decList decStr r
  let (a, r) ← decList decUnit r
  some (⟨n, p, c, a⟩, r)

/-- Reads back a model element. -/
def decModel (r : List Tok) : Option (Model × List Tok) := do
  let (n, r) ← decStr r
  let (ps, r) ← decList decStr r
  let (ls, r) ← decList decLink r
  let (js, r) ← decList decJoint r
  some (⟨n, ps, ls, js⟩, r)

/-- Modelled from the spec: decoding a rendered document. -/
def decSdf (r : List Tok) : Option (Sdf × List Tok) := do
  let (ms, r) ← decList decModel r
  some (⟨ms⟩, r)

/-- Render-then-decode round trip on a document. -/
def sdf_round_trip (s : Sdf) : Option Sdf := (decSdf (render s)).map (·.1)

/-! ### Derived relations and well-formedness predicates -/

/-- The kinematic step relation the builder walks: link `li` steps to
link `lj` when some joint of `connectedJoints[li]` maps to `lj` in
`connectedLinks`. -/
abbrev kstep (m : Model) (li lj : Nat) : Prop :=
  ∃ ji ∈ connected_joints m li, connected_links m ji = some lj

/-- Reachability along `kstep`. -/
def kreach (m : Model) : Nat → Nat → Prop := Relation.ReflTransGen (kstep m)

/-- Link names are pairwise distinct (§3 document invariant). -/
abbrev uniqueNames (m : Model) : Prop :=
  ∀ i < m.link.length, ∀ j < m.link.length, nm m i = nm m j → i = j

/-- Every joint's child name is some link's name (§3 document
invariant). -/
abbrev childResolves (m : Model) : Prop :=
  ∀ ji < m.joint.length, ∃ li < m.link.length, nm m li = jchild (jt m ji)

/-- Every joint's parent name is `"world"` or some link's name (§3
document invariant). -/
abbrev parentResolves (m : Model) : Prop :=
  ∀ ji < m.joint.length, jparent (jt m ji) = "world" ∨
    ∃ li < m.link.length, nm m li = jparent (jt m ji)

/-- No link usurps the reserved `"world"` sentinel as its name. -/
abbrev noWorldLink (m : Model) : Prop :=
  ∀ li < m.link.length, nm m li ≠ "world"

/-- Each link is the child of at most one joint whose parent is not
`"world"`. -/
abbrev oneParent (m : Model) : Prop :=
  ∀ i < m.joint.length, ∀ j < m.joint.length,
    (jchild (jt m i) = jchild (jt m j) ∧
      jparent (jt m i) ≠ "world" ∧ jparent (jt m j) ≠ "world") → i = j

/-- Every joint's `parent` and `child` elements are non-empty (their
index 0 is read throughout `parse`). -/
abbrev fieldsOk (m : Model) : Prop :=
  ∀ j ∈ m.joint, j.parent ≠ [] ∧ j.child ≠ []

/-- Acyclicity of the kinematic step relation, witnessed by a
topological ranking of the links. -/
abbrev topoRank (m : Model) (rank : Nat → Nat) : Prop :=
  (∀ li < m.link.length, ∀ lj < m.link.length, kstep m li lj → rank li < rank lj) ∧
  ∀ li < m.link.length, rank li < m.link.length

/-! ### Concrete documents used as witnesses and counterexamples -/

/-- Three links where `c` is the child of joints hanging from both `a`
and `b`: acyclic, uniquely named, but `c` has two parent joints. -/
def mShared : Model :=
  { name := "r", pose := []
    link := [⟨"a", []⟩, ⟨"b", []⟩, ⟨"c", []⟩]
    joint := [⟨"j1", ["a"], ["c"], []⟩, ⟨"j2", ["b"], ["c"], []⟩] }

/-- A topological rank for `mShared`. -/
def rankShared : Nat → Nat := fun li => if li = 2 then 1 else 0

/-- What `parse` returns on `mShared`. -/
def resShared : ParseResult :=
  ⟨"r", [0, 0, 0], [0, 0, 0], [0, 1],
    [.mk 0 none [.mk 2 (some 0) []], .mk 1 none [.mk 2 (some 1) []]]⟩

/-- Two links forming a closed kinematic loop. -/
def mCycle : Model :=
  { name := "r", pose := []
    link := [⟨"A", []⟩, ⟨"B", []⟩]
    joint := [⟨"j1", ["A"], ["B"], []⟩, ⟨"j2", ["B"], ["A"], []⟩] }

/-- One link anchored to the world frame by one joint. -/
def mWorld : Model :=
  { name := "r", pose := []
    link := [⟨"base", []⟩]
    joint := [⟨"jw", ["world"], ["base"], []⟩] }

/-- What `parse` returns on `mWorld`. -/
def resWorld : ParseResult :=
  ⟨"r", [0, 0, 0], [0, 0, 0], [0], [.mk 0 (some 0) []]⟩

/-- A joint whose child name `ghost` matches no link. -/
def mDangling : Model :=
  { name := "r", pose := []
    link := [⟨"a", []⟩]
    joint := [⟨"jd", ["a"], ["ghost"], []⟩] }

/-- Two links sharing the name `dup`, referenced by one joint. -/
def mDup : Model :=
  { name := "r", pose := []
    link := [⟨"a", []⟩, ⟨"dup", []⟩, ⟨"dup", []⟩]
    joint := [⟨"j0", ["a"], ["dup"], []⟩] }

/-- A single free-floating link. -/
def mOne : Model :=
  { name := "r", pose := [], link := [⟨"a", []⟩], joint := [] }

/-- A model with an undecodable pose and nothing else. -/
def mPose : Model :=
  { name := "r", pose := ["x"], link := [], joint := [] }

/-- What `parse` returns on `mPose`. -/
def resPose : ParseResult := ⟨"r", [0, 0, 0], [0, 0, 0], [], []⟩

/-! ### Helper lemmas: list utilities -/

/-- A non-empty list has a last element, and it is a member. -/
theorem getLast?_exists {α : Type} {l : List α} (h : l ≠ []) :
    ∃ a, l.getLast? = some a ∧ a ∈ l := by
  have hs : l.getLast?.isSome = true := List.getLast?_isSome.mpr h
  rcases Option.isSome_iff_exists.mp hs with ⟨a, ha⟩
  exact ⟨a, ha, List.mem_of_mem_getLast? ha⟩

/-- If every element of a non-empty list equals `a`, its last element is
`a`. -/
theorem getLast?_eq_of_all_eq {α : Type} {l : List α} {a : α}
    (hne : l ≠ []) (h : ∀ x ∈ l, x = a) : l.getLast? = some a := by
  rcases getLast?_exists hne with ⟨b, hb, hmem⟩
  rw [hb, h b hmem]

/-- In a `<`-pairwise (strictly increasing) list, the last element bounds
every member from above. -/
theorem le_getLast?_of_pairwise {l : List Nat} {a b : Nat}
    (hp : l.Pairwise (· < ·)) (hl : l.getLast? = some a) (hb : b ∈ l) : b ≤ a := by
  induction l with
  | nil => cases hb
  | cons x xs ih =>
    rcases List.pairwise_cons.mp hp with ⟨hx, hxs⟩
    cases xs with
    | nil =>
      rcases List.mem_singleton.mp hb with rfl
      simp [List.getLast?] at hl
      omega
    | cons y ys =>
      have hl' : (y :: ys).getLast? = some a := by rw [← List.getLast?_cons_cons, hl]
      rcases List.mem_cons.mp hb with rfl | hb'
      · have ha : a ∈ y :: ys := List.mem_of_mem_getLast? hl'
        have := hx a ha
        omega
      · exact ih hxs hl' hb'

/-! ### Helper lemmas: the derived cross-reference maps -/

/-- In-bounds `jt` is a genuine member of the joint list. -/
theorem jt_mem {m : Model} {ji : Nat} (h : ji < m.joint.length) : jt m ji ∈ m.joint := by
  rw [jt, List.getD_eq_getElem _ _ h]
  exact List.getElem_mem h

/-- In-bounds `lk` is a genuine member of the link list. -/
theorem lk_mem {m : Model} {li : Nat} (h : li < m.link.length) : lk m li ∈ m.link := by
  rw [lk, List.getD_eq_getElem _ _ h]
  exact List.getElem_mem h

/-- Every member of the joint list is `jt m ji` for an in-bounds `ji`. -/
theorem exists_jt {m : Model} {j : Joint} (h : j ∈ m.joint) :
    ∃ ji, ji < m.joint.length ∧ jt m ji = j := by
  rcases List.mem_iff_get.mp h with ⟨⟨ji, hji⟩, hgot⟩
  refine ⟨ji, hji, ?_⟩
  rw [jt, List.getD_eq_getElem _ _ hji, ← hgot]
  rfl

/-- Every member of the link list is `lk m li` for an in-bounds `li`. -/
theorem exists_lk {m : Model} {l : Link} (h : l ∈ m.link) :
    ∃ li, li < m.link.length ∧ lk m li = l := by
  rcases List.mem_iff_get.mp h with ⟨⟨li, hli⟩, hgot⟩
  refine ⟨li, hli, ?_⟩
  rw [lk, List.getD_eq_getElem _ _ hli, ← hgot]
  rfl

/-- Membership in `connected_joints`: exactly the in-bounds joints whose
parent name is the link's name, -/
theorem mem_connected_joints {m : Model} {li ji : Nat} :
    ji ∈ connected_joints m li ↔ ji < m.joint.length ∧ nm m li = jparent (jt m ji) := by
  simp [connected_joints, List.mem_filter, List.mem_range]

/-- `connected_joints` lists are duplicate-free. -/
theorem connected_joints_nodup (m : Model) (li : Nat) : (connected_joints m li).Nodup :=
  (List.nodup_range _).filter _

/-- What a successful `connected_links` lookup returns: an in-bounds
link, named like the joint's child. -/
theorem connected_links_some {m : Model} {ji li : Nat}
    (h : connected_links m ji = some li) :
    li < m.link.length ∧ nm m li = jchild (jt m ji) := by
  have hmem := List.mem_of_mem_getLast? h
  have := List.mem_filter.mp hmem
  simp [List.mem_range] at this
  exact this

/-- A `connected_links` lookup resolves to the *last* matching link:
every other match is bounded by it. -/
theorem connected_links_last {m : Model} {ji li lj : Nat}
    (h : connected_links m ji = some li)
    (hlj : lj < m.link.length) (hname : nm m lj = jchild (jt m ji)) : lj ≤ li := by
  have hp : (((List.range m.link.length).filter
      fun lx => decide (nm m lx = jchild (jt m ji)))).Pairwise (· < ·) :=
    (List.pairwise_lt_range _).filter _
  refine le_getLast?_of_pairwise hp h ?_
  simp [List.mem_filter, List.mem_range]
  exact ⟨hlj, hname⟩

/-- A `connected_links` lookup misses exactly when no link carries the
joint's child name (a python `KeyError` when used). -/
theorem connected_links_none {m : Model} {ji : Nat} :
    connected_links m ji = none ↔ ∀ li < m.link.length, nm m li ≠ jchild (jt m ji) := by
  rw [connected_links, List.getLast?_eq_none_iff, List.filter_eq_nil_iff]
  constructor
  · intro h li hli hname
    exact h li (List.mem_range.mpr hli) (by simp [hname])
  · intro h li hli
    simp only [decide_eq_true_eq]
    exact h li (List.mem_range.mp hli)

/-- Under unique link names, a joint whose child name is `nm m li`
resolves to exactly `li`. -/
theorem connected_links_eq {m : Model} (uniq : uniqueNames m) {ji li : Nat}
    (hli : li < m.link.length) (hname : nm m li = jchild (jt m ji)) :
    connected_links m ji = some li := by
  rw [connected_links]
  apply getLast?_eq_of_all_eq
  · intro hnil
    rw [List.filter_eq_nil_iff] at hnil
    exact hnil li (List.mem_range.mpr hli) (by simp [hname])
  · intro lx hlx
    have := List.mem_filter.mp hlx
    simp [List.mem_range] at this
    exact uniq lx this.1 li hli (this.2.trans hname.symm)

/-- Membership of a name in `child_links`: some link of that name is the
child of some joint whose parent is not `"world"`. -/
theorem mem_child_links {m : Model} {s : String} :
    s ∈ child_links m ↔
      ∃ l ∈ m.link, l.name = s ∧ ∃ j ∈ m.joint, l.name = jchild j ∧ jparent j ≠ "world" := by
  rw [child_links, List.mem_flatMap]
  constructor
  · rintro ⟨l, hl, hs⟩
    rcases List.mem_map.mp hs with ⟨j, hj, rfl⟩
    have := List.mem_filter.mp hj
    simp at this
    exact ⟨l, hl, rfl, j, this.1, this.2⟩
  · rintro ⟨l, hl, rfl, j, hj, hc, hp⟩
    refine ⟨l, hl, List.mem_map.mpr ⟨j, ?_, rfl⟩⟩
    rw [List.mem_filter]
    exact ⟨hj, by simp [hc, hp]⟩

/-- `sdf_tree.py:135`'s root classification, per index: a link is a root
iff no in-bounds joint has the link's name as child with a non-`"world"`
parent.  (The comprehension tests the *name* of the link against the
names collected in `child_links`; since the link itself ranges over the
link list, the existential collapses to the link's own name.) -/
theorem mem_root_links {m : Model} {li : Nat} :
    li ∈ root_links m ↔ li < m.link.length ∧
      ¬∃ ji, ji < m.joint.length ∧ jchild (jt m ji) = nm m li ∧ jparent (jt m ji) ≠ "world" := by
  rw [root_links, List.mem_filter, List.mem_range]
  constructor
  · rintro ⟨hli, hdec⟩
    refine ⟨hli, ?_⟩
    rintro ⟨ji, hji, hc, hp⟩
    have hmem : nm m li ∈ child_links m := by
      rw [mem_child_links]
      exact ⟨lk m li, lk_mem hli, rfl, jt m ji, jt_mem hji, hc.symm, hp⟩
    simp at hdec
    exact hdec hmem
  · rintro ⟨hli, hno⟩
    refine ⟨hli, ?_⟩
    simp only [decide_eq_true_eq]
    intro hmem
    rcases mem_child_links.mp hmem with ⟨l, hl, hname, j, hj, hc, hp⟩
    rcases exists_jt hj with ⟨ji, hji, rfl⟩
    exact hno ⟨ji, hji, by rw [← hc, hname], hp⟩

/-- Roots are in bounds. -/
theorem root_links_lt {m : Model} {li : Nat} (h : li ∈ root_links m) :
    li < m.link.length := (mem_root_links.mp h).1

/-- The root list is duplicate-free. -/
theorem root_links_nodup (m : Model) : (root_links m).Nodup :=
  (List.nodup_range _).filter _

/-- `world_joints` on a classified root: if some in-bounds joint has the
root's name as child and `"world"` as parent, the lookup yields such a
joint (the last one); otherwise it misses (`KeyError` in `parse`). -/
theorem world_joints_spec {m : Model} {li : Nat} (hroot : li ∈ root_links m) :
    ((∃ ji, ji < m.joint.length ∧ jchild (jt m ji) = nm m li ∧ jparent (jt m ji) = "world") →
      ∃ ji, world_joints m li = some ji ∧ ji < m.joint.length ∧
        jchild (jt m ji) = nm m li ∧ jparent (jt m ji) = "world") ∧
    ((¬∃ ji, ji < m.joint.length ∧ jchild (jt m ji) = nm m li ∧ jparent (jt m ji) = "world") →
      world_joints m li = none) := by
  rcases mem_root_links.mp hroot with ⟨hli, hnon⟩
  constructor
  · rintro ⟨ji, hji, hc, hp⟩
    have hne : ((List.range m.joint.length).filter
        fun jx => decide (nm m li = jchild (jt m jx))) ≠ [] := by
      intro hnil
      rw [List.filter_eq_nil_iff] at hnil
      exact hnil ji (List.mem_range.mpr hji) (by simp [hc])
    rcases getLast?_exists hne with ⟨jx, hjx, hjxm⟩
    have hmm := List.mem_filter.mp hjxm
    simp [List.mem_range] at hmm
    refine ⟨jx, hjx, hmm.1, hmm.2.symm, ?_⟩
    by_contra hw
    exact hnon ⟨jx, hmm.1, hmm.2.symm, hw⟩
  · intro hno
    rw [world_joints, List.getLast?_eq_none_iff, List.filter_eq_nil_iff]
    intro jx hjx
    simp only [decide_eq_true_eq]
    intro hname
    have hjx' := List.mem_range.mp hjx
    by_cases hw : jparent (jt m jx) = "world"
    · exact hno ⟨jx, hjx', hname.symm, hw⟩
    · exact hnon ⟨jx, hjx', hname.symm, hw⟩

/-! ### Helper lemmas: steps, reachability and ranks -/

/-- A kinematic step always lands on an in-bounds link. -/
theorem kstep_lt {m : Model} {li lj : Nat} (h : kstep m li lj) : lj < m.link.length := by
  rcases h with ⟨ji, _, hcl⟩
  exact (connected_links_some hcl).1

/-- Along reachability from an in-bounds link, the rank never decreases
and every visited link stays in bounds. -/
theorem kreach_rank {m : Model} {rank : Nat → Nat} (hr : topoRank m rank) {a b : Nat}
    (ha : a < m.link.length) (h : kreach m a b) : rank a ≤ rank b ∧ b < m.link.length := by
  induction h with
  | refl => exact ⟨Nat.le_refl _, ha⟩
  | tail hab hbc ih =>
    have hlt := hr.1 _ ih.2 _ (kstep_lt hbc) hbc
    exact ⟨Nat.le_trans ih.1 (Nat.le_of_lt hlt), kstep_lt hbc⟩

/-- No kinematic step can be closed back into a cycle under a
topological rank. -/
theorem kstep_no_return {m : Model} {rank : Nat → Nat} (hr : topoRank m rank) {a b : Nat}
    (ha : a < m.link.length) (hs : kstep m a b) (h : kreach m b a) : False := by
  have hb := kstep_lt hs
  have h1 := hr.1 _ ha _ hb hs
  have h2 := (kreach_rank hr hb h).1
  omega

/-! ### Helper lemmas: `seqTrees` and `build` -/

/-- A successful `seqTrees` run returns one tree per input, pointwise. -/
theorem seqTrees_ok {l : List (Except Err KTree)} {ts : List KTree}
    (h : seqTrees l = .ok ts) :
    ts.length = l.length ∧
      ∀ k (hk : k < l.length) (hk' : k < ts.length), l.get ⟨k, hk⟩ = .ok (ts.get ⟨k, hk'⟩) := by
  induction l generalizing ts with
  | nil =>
    cases h
    exact ⟨rfl, fun k hk => by cases hk⟩
  | cons x xs ih =>
    match x, h with
    | .ok t, h =>
      simp only [seqTrees] at h
      match hxs : seqTrees xs, h with
      | .ok us, h =>
        cases h
        rcases ih hxs with ⟨hlen, hpt⟩
        refine ⟨by simp [hlen], ?_⟩
        intro k hk hk'
        match k with
        | 0 => rfl
        | k + 1 => exact hpt k (by simpa using hk) (by simpa using hk')

/-- A successful `build` returns a node carrying exactly the requested
link and joint. -/
theorem build_ok_shape {m : Model} {fuel li : Nat} {jo : Option Nat} {t : KTree}
    (h : build m fuel li jo = .ok t) : t.link = li ∧ t.joint = jo := by
  match fuel, h with
  | f + 1, h =>
    simp only [build] at h
    match hs : seqTrees ((connected_joints m li).map fun ji =>
        match connected_links m ji with
        | none => .error .keyError
        | some mi => build m f mi (some ji)), h with
    | .ok ts, h =>
      cases h
      exact ⟨rfl, rfl⟩

/-- Unpacks a kinematic step into its witnessing joint. -/
theorem kstep_elim {m : Model} {li lj : Nat} (h : kstep m li lj) :
    ∃ ji, ji ∈ connected_joints m li ∧ ji < m.joint.length ∧
      jparent (jt m ji) = nm m li ∧ jchild (jt m ji) = nm m lj ∧
      connected_links m ji = some lj := by
  rcases h with ⟨ji, hmem, hcl⟩
  rcases mem_connected_joints.mp hmem with ⟨hji, hp⟩
  rcases connected_links_some hcl with ⟨hlj, hc⟩
  exact ⟨ji, hmem, hji, hp.symm, hc.symm, hcl⟩

/-- Under unique names, no `"world"`-named link, at most one non-world
parent joint per child name and a topological rank, two joints hanging
off the same link whose subtrees can both reach `lj` must be the same
joint: the builder's recursion meets every reachable link through a
unique first step. -/
theorem first_joint_unique {m : Model} {rank : Nat → Nat}
    (uniq : uniqueNames m) (nw : noWorldLink m) (op : oneParent m) (hr : topoRank m rank) :
    ∀ lj li ji1 ji2 m1 m2, li < m.link.length →
      ji1 ∈ connected_joints m li → connected_links m ji1 = some m1 → kreach m m1 lj →
      ji2 ∈ connected_joints m li → connected_links m ji2 = some m2 → kreach m m2 lj →
      ji1 = ji2 := by
  suffices H : ∀ k lj, rank lj = k → ∀ li ji1 ji2 m1 m2, li < m.link.length →
      ji1 ∈ connected_joints m li → connected_links m ji1 = some m1 → kreach m m1 lj →
      ji2 ∈ connected_joints m li → connected_links m ji2 = some m2 → kreach m m2 lj →
      ji1 = ji2 by
    exact fun lj => H (rank lj) lj rfl
  intro k
  induction k using Nat.strong_induction_on with
  | _ k ih =>
    rintro lj rfl li ji1 ji2 m1 m2 hli h1m h1c h1r h2m h2c h2r
    have hm1 := connected_links_some h1c
    have hm2 := connected_links_some h2c
    have hji1 := mem_connected_joints.mp h1m
    have hji2 := mem_connected_joints.mp h2m
    have hpar1 : jparent (jt m ji1) ≠ "world" := by
      rw [← hji1.2]; exact nw li hli
    have hpar2 : jparent (jt m ji2) ≠ "world" := by
      rw [← hji2.2]; exact nw li hli
    cases Relation.ReflTransGen.cases_tail h1r with
    | inl heq1 =>
      cases Relation.ReflTransGen.cases_tail h2r with
      | inl heq2 =>
        exact op ji1 hji1.1 ji2 hji2.1
          ⟨by rw [← hm1.2, ← heq1, heq2, hm2.2], hpar1, hpar2⟩
      | inr h2t =>
        rcases h2t with ⟨u2, hru2, hsu2⟩
        rcases kstep_elim hsu2 with ⟨ju2, _, hju2lt, hju2p, hju2c, _⟩
        have hu2 : u2 < m.link.length := (kreach_rank hr hm2.1 hru2).2
        have hju2pw : jparent (jt m ju2) ≠ "world" := by
          rw [hju2p]; exact nw u2 hu2
        have hjeq : ji1 = ju2 := op ji1 hji1.1 ju2 hju2lt
          ⟨by rw [← hm1.2, ← heq1, ← hju2c], hpar1, hju2pw⟩
        have hueq : u2 = li := by
          apply uniq u2 hu2 li hli
          rw [← hju2p, ← hjeq, ← hji1.2]
        exact absurd (hueq ▸ hru2) fun hh =>
          kstep_no_return hr hli ⟨ji2, h2m, h2c⟩ hh
    | inr h1t =>
      rcases h1t with ⟨u1, hru1, hsu1⟩
      rcases kstep_elim hsu1 with ⟨ju1, _, hju1lt, hju1p, hju1c, _⟩
      have hu1 : u1 < m.link.length := (kreach_rank hr hm1.1 hru1).2
      have hju1pw : jparent (jt m ju1) ≠ "world" := by
        rw [hju1p]; exact nw u1 hu1
      cases Relation.ReflTransGen.cases_tail h2r with
      | inl heq2 =>
        have hjeq : ji2 = ju1 := op ji2 hji2.1 ju1 hju1lt
          ⟨by rw [← hm2.2, ← heq2, ← hju1c], hpar2, hju1pw⟩
        have hueq : u1 = li := by
          apply uniq u1 hu1 li hli
          rw [← hju1p, ← hjeq, ← hji2.2]
        exact absurd (hueq ▸ hru1) fun hh =>
          kstep_no_return hr hli ⟨ji1, h1m, h1c⟩ hh
      | inr h2t =>
        rcases h2t with ⟨u2, hru2, hsu2⟩
        rcases kstep_elim hsu2 with ⟨ju2, _, hju2lt, hju2p, hju2c, _⟩
        have hu2 : u2 < m.link.length := (kreach_rank hr hm2.1 hru2).2
        have hju2pw : jparent (jt m ju2) ≠ "world" := by
          rw [hju2p]; exact nw u2 hu2
        have hjueq : ju1 = ju2 := op ju1 hju1lt ju2 hju2lt
          ⟨by rw [hju1c, hju2c], hju1pw, hju2pw⟩
        have huu : u1 = u2 := by
          apply uniq u1 hu1 u2 hu2
          rw [← hju1p, hjueq, hju2p]
        have hlj : lj < m.link.length := kstep_lt hsu1
        have hrk : rank u1 < rank lj := hr.1 u1 hu1 lj hlj hsu1
        exact ih (rank u1) hrk u1 rfl li ji1 ji2 m1 m2 hli
          h1m h1c hru1 h2m h2c (huu ▸ hru2)

/-- Every in-bounds link is reachable from some classified root link. -/
theorem root_exists {m : Model} {rank : Nat → Nat}
    (uniq : uniqueNames m) (pres : parentResolves m) (hr : topoRank m rank) :
    ∀ lj, lj < m.link.length → ∃ r ∈ root_links m, kreach m r lj := by
  suffices H : ∀ k lj, rank lj = k → lj < m.link.length →
      ∃ r ∈ root_links m, kreach m r lj by
    exact fun lj => H (rank lj) lj rfl
  intro k
  induction k using Nat.strong_induction_on with
  | _ k ih =>
    rintro lj rfl hlj
    by_cases hroot : lj ∈ root_links m
    · exact ⟨lj, hroot, Relation.ReflTransGen.refl⟩
    · have hnot : ∃ ji, ji < m.joint.length ∧ jchild (jt m ji) = nm m lj ∧
          jparent (jt m ji) ≠ "world" := by
        by_contra hn
        exact hroot (mem_root_links.mpr ⟨hlj, hn⟩)
      rcases hnot with ⟨ji, hji, hc, hp⟩
      rcases pres ji hji with hw | ⟨lp, hlp, hpn⟩
      · exact absurd hw hp
      · have hmem : ji ∈ connected_joints m lp := mem_connected_joints.mpr ⟨hji, hpn⟩
        have hcl : connected_links m ji = some lj := connected_links_eq uniq hlj hc.symm
        have hstep : kstep m lp lj := ⟨ji, hmem, hcl⟩
        have hrk : rank lp < rank lj := hr.1 lp hlp lj hlj hstep
        rcases ih (rank lp) hrk lp rfl hlp with ⟨r, hrm, hrr⟩
        exact ⟨r, hrm, hrr.tail hstep⟩

/-- At most one classified root reaches any given link. -/
theorem root_unique {m : Model} {rank : Nat → Nat}
    (uniq : uniqueNames m) (nw : noWorldLink m) (op : oneParent m) (hr : topoRank m rank) :
    ∀ lj r1 r2, r1 ∈ root_links m → r2 ∈ root_links m →
      kreach m r1 lj → kreach m r2 lj → r1 = r2 := by
  suffices H : ∀ k lj, rank lj = k → ∀ r1 r2, r1 ∈ root_links m → r2 ∈ root_links m →
      kreach m r1 lj → kreach m r2 lj → r1 = r2 by
    exact fun lj => H (rank lj) lj rfl
  intro k
  induction k using Nat.strong_induction_on with
  | _ k ih =>
    rintro lj rfl r1 r2 hr1 hr2 hk1 hk2
    have hr1lt := root_links_lt hr1
    have hr2lt := root_links_lt hr2
    cases Relation.ReflTransGen.cases_tail hk1 with
    | inl heq1 =>
      cases Relation.ReflTransGen.cases_tail hk2 with
      | inl heq2 => rw [← heq1, ← heq2]
      | inr h2t =>
        rcases h2t with ⟨u2, hru2, hsu2⟩
        rcases kstep_elim hsu2 with ⟨ju2, _, hju2lt, hju2p, hju2c, _⟩
        have hu2 : u2 < m.link.length := (kreach_rank hr hr2lt hru2).2
        exfalso
        apply (mem_root_links.mp hr1).2
        refine ⟨ju2, hju2lt, ?_, ?_⟩
        · rw [hju2c, ← heq1]
        · rw [hju2p]; exact nw u2 hu2
    | inr h1t =>
      rcases h1t with ⟨u1, hru1, hsu1⟩
      rcases kstep_elim hsu1 with ⟨ju1, _, hju1lt, hju1p, hju1c, _⟩
      have hu1 : u1 < m.link.length := (kreach_rank hr hr1lt hru1).2
      cases Relation.ReflTransGen.cases_tail hk2 with
      | inl heq2 =>
        exfalso
        apply (mem_root_links.mp hr2).2
        refine ⟨ju1, hju1lt, ?_, ?_⟩
        · rw [hju1c, ← heq2]
        · rw [hju1p]; exact nw u1 hu1
      | inr h2t =>
        rcases h2t with ⟨u2, hru2, hsu2⟩
        rcases kstep_elim hsu2 with ⟨ju2, _, hju2lt, hju2p, hju2c, _⟩
        have hu2 : u2 < m.link.length := (kreach_rank hr hr2lt hru2).2
        have hjueq : ju1 = ju2 := op ju1 hju1lt ju2 hju2lt
          ⟨by rw [hju1c, hju2c],
            by rw [hju1p]; exact nw u1 hu1,
            by rw [hju2p]; exact nw u2 hu2⟩
        have huu : u1 = u2 := by
          apply uniq u1 hu1 u2 hu2
          rw [← hju1p, hjueq, hju2p]
        have hlj : lj < m.link.length := kstep_lt hsu1
        have hrk : rank u1 < rank lj := hr.1 u1 hu1 lj hlj hsu1
        exact ih (rank u1) hrk u1 rfl r1 r2 hr1 hr2 hru1 (huu ▸ hru2)

/-- Main counting lemma for the tree builder: with enough fuel (the
topological rank bounds the recursion depth), `build` succeeds and its
tree contains every link reachable from the start exactly once, and
unreachable links not at all. -/
theorem build_count {m : Model} {rank : Nat → Nat}
    (uniq : uniqueNames m) (cres : childResolves m) (nw : noWorldLink m)
    (op : oneParent m) (hr : topoRank m rank) :
    ∀ fuel li jo, li < m.link.length → m.link.length - rank li ≤ fuel →
      ∃ t, build m fuel li jo = .ok t ∧ t.link = li ∧ t.joint = jo ∧
        ∀ lj, (kreach m li lj → cntT lj t = 1) ∧ (¬kreach m li lj → cntT lj t = 0) := by
  intro fuel
  induction fuel with
  | zero =>
    intro li jo hli hf
    exfalso
    have := hr.2 li hli
    omega
  | succ f ih =>
    intro li jo hli hf
    have sub : ∀ js : List Nat, (∀ ji ∈ js, ji ∈ connected_joints m li) → js.Nodup →
        ∃ ts, seqTrees (js.map fun ji =>
            match connected_links m ji with
            | none => .error Err.keyError
            | some mi => build m f mi (some ji)) = .ok ts ∧
          ∀ lj,
            ((∃ ji ∈ js, ∃ mi, connected_links m ji = some mi ∧ kreach m mi lj) →
              cntL lj ts = 1) ∧
            ((¬∃ ji ∈ js, ∃ mi, connected_links m ji = some mi ∧ kreach m mi lj) →
              cntL lj ts = 0) := by
      intro js
      induction js with
      | nil =>
        intro _ _
        refine ⟨[], rfl, fun lj => ⟨?_, fun _ => rfl⟩⟩
        rintro ⟨ji, hji, _⟩
        cases hji
      | cons ji rest ihl =>
        intro hsub hnd
        have hjicj : ji ∈ connected_joints m li := hsub ji (List.mem_cons_self _ _)
        rcases mem_connected_joints.mp hjicj with ⟨hjilt, hjip⟩
        rcases cres ji hjilt with ⟨mi0, hmi0lt, hmi0n⟩
        have hcl : connected_links m ji = some mi0 := connected_links_eq uniq hmi0lt hmi0n
        have hstep : kstep m li mi0 := ⟨ji, hjicj, hcl⟩
        have hrk : rank li < rank mi0 := hr.1 li hli mi0 hmi0lt hstep
        have hli' := hr.2 li hli
        have hf' : m.link.length - rank mi0 ≤ f := by omega
        rcases ih mi0 (some ji) hmi0lt hf' with ⟨t1, ht1, _, _, ht1c⟩
        rcases ihl (fun x hx => hsub x (List.mem_cons_of_mem _ hx)) hnd.of_cons
          with ⟨ts, hts, htsc⟩
        refine ⟨t1 :: ts, ?_, ?_⟩
        · simp only [List.map_cons, seqTrees, hcl, ht1, hts]
        · intro lj
          constructor
          · rintro ⟨jx, hjx, mx, hmx, hmxr⟩
            by_cases hk0 : kreach m mi0 lj
            · have h1 : cntT lj t1 = 1 := (ht1c lj).1 hk0
              have h0 : cntL lj ts = 0 := by
                apply (htsc lj).2
                rintro ⟨jy, hjy, my, hmy, hmyr⟩
                have hji_eq : ji = jy := first_joint_unique uniq nw op hr lj li ji jy mi0 my
                  hli hjicj hcl hk0 (hsub jy (List.mem_cons_of_mem _ hjy)) hmy hmyr
                rw [List.nodup_cons] at hnd
                exact hnd.1 (hji_eq ▸ hjy)
              simp [cntL, h1, h0]
            · have h1 : cntT lj t1 = 0 := (ht1c lj).2 hk0
              have hjxrest : jx ∈ rest := by
                rcases List.mem_cons.mp hjx with rfl | h
                · rw [hcl] at hmx
                  cases hmx
                  exact absurd hmxr hk0
                · exact h
              have h0 : cntL lj ts = 1 := (htsc lj).1 ⟨jx, hjxrest, mx, hmx, hmxr⟩
              simp [cntL, h1, h0]
          · intro hno
            have h1 : cntT lj t1 = 0 := (ht1c lj).2
              fun hk => hno ⟨ji, (List.mem_cons_self _ _), mi0, hcl, hk⟩
            have h0 : cntL lj ts = 0 := by
              apply (htsc lj).2
              rintro ⟨jy, hjy, my, hmy, hr'⟩
              exact hno ⟨jy, List.mem_cons_of_mem _ hjy, my, hmy, hr'⟩
            simp [cntL, h1, h0]
    rcases sub (connected_joints m li) (fun _ h => h) (connected_joints_nodup m li)
      with ⟨ts, hts, htsc⟩
    refine ⟨.mk li jo ts, ?_, rfl, rfl, ?_⟩
    · simp only [build, hts]
    · intro lj
      constructor
      · intro hk
        by_cases heq : li = lj
        · have h0 : cntL lj ts = 0 := by
            apply (htsc lj).2
            rintro ⟨jx, hjx, mx, hmx, hmxr⟩
            exact kstep_no_return hr hli ⟨jx, hjx, hmx⟩ (heq ▸ hmxr)
          simp [cntT, heq, h0]
        · rcases Relation.ReflTransGen.cases_head hk with heq' | ⟨c, hc1, hc2⟩
          · exact absurd heq' heq
          · rcases hc1 with ⟨jx, hjx, hmx⟩
            have h1 : cntL lj ts = 1 := (htsc lj).1 ⟨jx, hjx, c, hmx, hc2⟩
            simp [cntT, heq, h1]
      · intro hk
        have h0 : cntL lj ts = 0 := by
          apply (htsc lj).2
          rintro ⟨jx, hjx, mx, hmx, hmxr⟩
          exact hk (Relation.ReflTransGen.head ⟨jx, hjx, hmx⟩ hmxr)
        have hne : li ≠ lj := fun h => hk (h ▸ Relation.ReflTransGen.refl)
        simp [cntT, hne, h0]

/-! ### Helper lemmas: unpacking a successful `parse` -/

/-- What a successful `parse_rest` of a one-model document returns: the root
classification, chains produced by `build` from each root with its
`world_joints` entry, the model name, and the global-pose defaults when
the pose is absent or undecodable. -/
theorem parse_rest_ok_elim {m : Model} {fuel : Nat} {res : ParseResult}
    (h : parse_rest (.decoded ⟨[m]⟩) fuel = .ok res) :
    res.rootLinks = root_links m ∧
    seqTrees ((root_links m).map fun li => build m fuel li (world_joints m li)) =
      .ok res.chains ∧
    res.name = m.name ∧
    ((m.pose = [] ∨ string_to_list (m.pose.headD "") = none) →
      res.location = [0, 0, 0] ∧ res.rotation = [0, 0, 0]) := by
  simp only [parse_rest, List.head?] at h
  split at h
  · split at h
    · exact absurd h (by simp)
    · cases h
      refine ⟨rfl, by assumption, rfl, ?_⟩
      rintro (hp | hp)
      · rw [hp]
        exact ⟨rfl, rfl⟩
      · cases hmp : m.pose with
        | nil => exact ⟨rfl, rfl⟩
        | cons s rest =>
          rw [hmp] at hp
          simp only [List.headD] at hp
          simp [List.head?, hp]
  · exact absurd h (by simp)

/-- Conversely, when every joint has non-empty `parent`/`child` elements
and the per-root builds all succeed, `parse_rest` succeeds and returns
the root classification and those chains. -/
theorem parse_rest_ok_intro {m : Model} {fuel : Nat} {chains : List KTree}
    (hf : fieldsOk m)
    (hs : seqTrees ((root_links m).map fun li => build m fuel li (world_joints m li)) =
      .ok chains) :
    ∃ res, parse_rest (.decoded ⟨[m]⟩) fuel = .ok res ∧
      res.rootLinks = root_links m ∧ res.chains = chains := by
  simp only [parse_rest, List.head?]
  have hcond : m.link.isEmpty = true ∨
      (m.joint.all fun j => !j.parent.isEmpty && !j.child.isEmpty) = true := by
    right
    rw [List.all_eq_true]
    intro j hj
    rcases hf j hj with ⟨h1, h2⟩
    simp [List.isEmpty_iff, h1, h2]
  rw [if_pos hcond, hs]
  exact ⟨_, rfl, rfl, rfl⟩

/-- Forest-level counting: with enough fuel, the whole forest of chains
is produced, has one entry per classified root, and contains every
in-bounds link exactly once. -/
theorem forest_count {m : Model} {rank : Nat → Nat}
    (uniq : uniqueNames m) (cres : childResolves m) (pres : parentResolves m)
    (nw : noWorldLink m) (op : oneParent m) (hr : topoRank m rank)
    (fuel : Nat) (hfuel : m.link.length ≤ fuel) :
    ∃ ts, seqTrees ((root_links m).map fun li => build m fuel li (world_joints m li)) =
        .ok ts ∧
      ts.length = (root_links m).length ∧
      ∀ lj, lj < m.link.length → cntL lj ts = 1 := by
  have sub : ∀ rs : List Nat, (∀ r ∈ rs, r ∈ root_links m) → rs.Nodup →
      ∃ ts, seqTrees (rs.map fun li => build m fuel li (world_joints m li)) = .ok ts ∧
        ts.length = rs.length ∧
        ∀ lj, ((∃ r ∈ rs, kreach m r lj) → cntL lj ts = 1) ∧
              ((¬∃ r ∈ rs, kreach m r lj) → cntL lj ts = 0) := by
    intro rs
    induction rs with
    | nil =>
      refine fun _ _ => ⟨[], rfl, rfl, fun lj => ⟨?_, fun _ => rfl⟩⟩
      rintro ⟨r, hr', _⟩
      cases hr'
    | cons r rest ihl =>
      intro hsub hnd
      have hrm := hsub r (List.mem_cons_self _ _)
      have hrlt := root_links_lt hrm
      have hfr : m.link.length - rank r ≤ fuel := by omega
      rcases build_count uniq cres nw op hr fuel r (world_joints m r) hrlt hfr
        with ⟨t, ht, _, _, htc⟩
      rcases ihl (fun x hx => hsub x (List.mem_cons_of_mem _ hx)) hnd.of_cons
        with ⟨ts, hts, hlen, htsc⟩
      refine ⟨t :: ts, ?_, by simp [hlen], ?_⟩
      · simp only [List.map_cons, seqTrees, ht, hts]
      · intro lj
        constructor
        · rintro ⟨rx, hrx, hrxr⟩
          by_cases hk : kreach m r lj
          · have h1 := (htc lj).1 hk
            have h0 : cntL lj ts = 0 := by
              apply (htsc lj).2
              rintro ⟨ry, hry, hryr⟩
              have heq : r = ry := root_unique uniq nw op hr lj r ry hrm
                (hsub ry (List.mem_cons_of_mem _ hry)) hk hryr
              rw [List.nodup_cons] at hnd
              exact hnd.1 (heq ▸ hry)
            simp [cntL, h1, h0]
          · have h1 := (htc lj).2 hk
            have hrxrest : rx ∈ rest := by
              rcases List.mem_cons.mp hrx with rfl | h
              · exact absurd hrxr hk
              · exact h
            have h0 := (htsc lj).1 ⟨rx, hrxrest, hrxr⟩
            simp [cntL, h1, h0]
        · intro hno
          have h1 := (htc lj).2 fun hk => hno ⟨r, List.mem_cons_self _ _, hk⟩
          have h0 := (htsc lj).2 fun hw => by
            rcases hw with ⟨ry, hry, hryr⟩
            exact hno ⟨ry, List.mem_cons_of_mem _ hry, hryr⟩
          simp [cntL, h1, h0]
  rcases sub (root_links m) (fun _ h => h) (root_links_nodup m) with ⟨ts, hts, hlen, htsc⟩
  refine ⟨ts, hts, hlen, fun lj hlj => ?_⟩
  rcases root_exists uniq pres hr lj hlj with ⟨r, hrm, hrr⟩
  exact (htsc lj).1 ⟨r, hrm, hrr⟩

/-! ### Helper lemmas: the render/decode round trip -/

/-- Decoding inverts rendering for plural elements, given it does for
items. -/
theorem decTimes_enc {α : Type} (f : α → List Tok) (g : List Tok → Option (α × List Tok))
    (h : ∀ x r, g (f x ++ r) = some (x, r)) :
    ∀ (xs : List α) (r), decTimes g xs.length (xs.flatMap f ++ r) = some (xs, r) := by
  intro xs
  induction xs with
  | nil => intro r; rfl
  | cons x xs ih =>
    intro r
    simp only [List.flatMap_cons, List.length_cons, decTimes, List.append_assoc, h, ih]

/-- Decoding inverts rendering for a length-prefixed plural element. -/
theorem decList_enc {α : Type} (f : α → List Tok) (g : List Tok → Option (α × List Tok))
    (h : ∀ x r, g (f x ++ r) = some (x, r)) (xs : List α) (r : List Tok) :
    decList g (encList f xs ++ r) = some (xs, r) := by
  simp only [encList, List.cons_append, decList, decNat, decTimes_enc f g h]

/-- Round trip for string lists. -/
theorem decList_encStr (xs : List String) (r : List Tok) :
    decList decStr (encList encStr xs ++ r) = some (xs, r) :=
  decList_enc _ _ (fun _ _ => rfl) xs r

/-- Round trip for numeric lists. -/
theorem decList_encRat (xs : List Rat) (r : List Tok) :
    decList decRat (encList encRat xs ++ r) = some (xs, r) :=
  decList_enc _ _ (fun _ _ => rfl) xs r

/-- Round trip for content-free element lists. -/
theorem decList_encUnit (xs : List Unit) (r : List Tok) :
    decList decUnit (encList encUnit xs ++ r) = some (xs, r) :=
  decList_enc _ _ (fun _ _ => rfl) xs r

/-- Round trip for an inertia tensor element. -/
theorem decInertia_enc (t : Inertia) (r : List Tok) :
    decInertia (encInertia t ++ r) = some (t, r) := by
  simp only [encInertia, List.append_assoc, decInertia, decList_encRat, Option.bind,
    Option.pure_def, Option.bind_eq_bind, Option.bind_some]

/-- Round trip for an inertial block. -/
theorem decInertial_enc (i : Inertial) (r : List Tok) :
    decInertial (encInertial i ++ r) = some (i, r) := by
  simp only [encInertial, List.append_assoc, decInertial, decList_encStr,
    decList_enc encInertia decInertia decInertia_enc, Option.bind,
    Option.pure_def, Option.bind_eq_bind, Option.bind_some]

/-- Round trip for a link element. -/
theorem decLink_enc (l : Link) (r : List Tok) :
    decLink (encLink l ++ r) = some (l, r) := by
  simp only [encLink, encStr, List.append_assoc, List.cons_append, List.nil_append,
    decLink, decStr, decList_enc encInertial decInertial decInertial_enc, Option.bind,
    Option.pure_def, Option.bind_eq_bind, Option.bind_some]

/-- Round trip for a joint element. -/
theorem decJoint_enc (j : Joint) (r : List Tok) :
    decJoint (encJoint j ++ r) = some (j, r) := by
  simp only [encJoint, encStr, List.append_assoc, List.cons_append, List.nil_append,
    decJoint, decStr, decList_encStr, decList_encUnit, Option.bind,
    Option.pure_def, Option.bind_eq_bind, Option.bind_some]

/-- Round trip for a model element. -/
theorem decModel_enc (m : Model) (r : List Tok) :
    decModel (encModel m ++ r) = some (m, r) := by
  simp only [encModel, encStr, List.append_assoc, List.cons_append, List.nil_append,
    decModel, decStr, decList_encStr, decList_enc encLink decLink decLink_enc,
    decList_enc encJoint decJoint decJoint_enc, Option.bind,
    Option.pure_def, Option.bind_eq_bind, Option.bind_some]

/-- Decoding inverts rendering for whole documents. -/
theorem decSdf_render (s : Sdf) (r : List Tok) :
    decSdf (render s ++ r) = some (s, r) := by
  simp only [render, decSdf, decList_enc encModel decModel decModel_enc, Option.bind,
    Option.pure_def, Option.bind_eq_bind, Option.bind_some]

/-- Complement to the silent-truncation behaviour: when `build` is
started inside the loop `A ⇄ B` of `mCycle` it exhausts every recursion
budget — the python original, which has no budget, recurses without
bound (no cycle error is ever raised). -/
theorem build_cycle_diverges :
    ∀ fuel (jo : Option Nat),
      build mCycle fuel 0 jo = .error .outOfFuel ∧
      build mCycle fuel 1 jo = .error .outOfFuel := by
  intro fuel
  induction fuel with
  | zero => exact fun jo => ⟨rfl, rfl⟩
  | succ f ih =>
    intro jo
    have h0 : connected_joints mCycle 0 = [0] := rfl
    have h1 : connected_joints mCycle 1 = [1] := rfl
    have hc0 : connected_links mCycle 0 = some 1 := rfl
    have hc1 : connected_links mCycle 1 = some 0 := rfl
    constructor
    · simp only [build, h0, List.map_cons, List.map_nil, hc0, (ih (some 0)).2, seqTrees]
    · simp only [build, h1, List.map_cons, List.map_nil, hc1, (ih (some 1)).1, seqTrees]

/-! ### Claim theorems -/

/-- C9 (code evaluated at the failing input): on an input whose XML
decoding hits a nondeterministic content model, the shipped `parse`
aborts with an unstructured `NameError` — the handler's first statement
`logger.error(...)` (`sdf_tree.py:91`) uses the unbound name `logger`,
so the structured `raise e` at line 92 is unreachable — and *not* with
the malformed-document error carrying the offending element's name that
the claim describes; the unreachable re-raise (`parse_rest`) would have
carried it. -/
theorem c9_malformed_aborts (name : String) :
    parse (.nondet name) = .error .nameError ∧
    parse (.nondet name) ≠ .error (.malformedDocument name) ∧
    parse_rest (.nondet name) 0 = .error (.malformedDocument name) :=
  ⟨rfl, by simp [parse], rfl⟩

/-- C10 (code evaluated at the failing input, and the intended
defaults): on `mPose` — a model whose pose `"x"` is undecodable — the
pose block (`sdf_tree.py:95`–101) computes the `[0,0,0]` defaults into
local variables, but the shipped `parse` then raises `NameError` at
line 105 and never returns them.  In the unreachable remainder of the
function, any successful result of a document with a missing or
undecodable pose does carry the `[0,0,0]` defaults, as the claim
describes. -/
theorem c10_pose_defaults :
    parse (.decoded ⟨[mPose]⟩) = .error .nameError ∧
    ∀ (m : Model) (fuel : Nat) (res : ParseResult),
      parse_rest (.decoded ⟨[m]⟩) fuel = .ok res →
      (m.pose = [] ∨ string_to_list (m.pose.headD "") = none) →
      res.location = [0, 0, 0] ∧ res.rotation = [0, 0, 0] :=
  ⟨rfl, fun _ _ _ h hp => (parse_rest_ok_elim h).2.2.2 hp⟩

/-- C10 witness at `mPose`. -/
theorem c10_pose_defaults_witness :
    (parse_rest (.decoded ⟨[mPose]⟩) 0 = .ok resPose ∧
      (mPose.pose = [] ∨ string_to_list (mPose.pose.headD "") = none)) ∧
    resPose.location = [0, 0, 0] ∧ resPose.rotation = [0, 0, 0] :=
  ⟨⟨rfl, Or.inr rfl⟩, c10_pose_defaults.2 mPose 0 resPose rfl (Or.inr rfl)⟩

/-- C6: after the serializer walk and before rendering, a joint survives
into the document's joint list exactly when its parent element is
non-empty — every joint whose parent is still unset is removed, every
joint with a set parent is kept. -/
theorem c6_orphan_filter (s : ExportState) (j : Joint) :
    j ∈ (write s).joints ↔ j ∈ (write_walk s).joints ∧ j.parent ≠ [] := by
  show j ∈ ((write_walk s).joints.filter fun j => !j.parent.isEmpty) ↔ _
  rw [List.mem_filter]
  simp

/-- C5 (failing-input evaluation): after `create_empty` plus one
`add`, the serializer walk leaves the appended joint's parent element
empty — `add` never records the parent relationship, the recording code
being commented out — while the child element does receive the paired
link's name; the orphan filter then deletes the joint, so the claimed
parent assignment never happens. -/
theorem c5_export_parent_never_set :
    ((write_walk (add (create_empty "robot"))).joints.map fun j => (j.parent, j.child)) =
      [([], [""])] ∧
    (write (add (create_empty "robot"))).joints = [] := ⟨rfl, rfl⟩

/-- C3 (amended): no cycle is ever detected and no cyclic-kinematics
error exists.  The shipped `parse` raises `NameError` (unbound
`logger`, `sdf_tree.py:105`) before tree building on every one-model
document, cyclic or not.  In the unreachable remainder: when every link
is the child of some non-world joint — as in any closed kinematic loop
— no link is classified as a root, and the function returns an empty
forest, silently omitting every link, instead of failing. -/
theorem c3_cycles_silently_truncated (m : Model) (fuel : Nat)
    (hf : fieldsOk m)
    (hall : ∀ li < m.link.length, ∃ ji, ji < m.joint.length ∧
      jchild (jt m ji) = nm m li ∧ jparent (jt m ji) ≠ "world") :
    parse (.decoded ⟨[m]⟩) = .error .nameError ∧
    ∃ res, parse_rest (.decoded ⟨[m]⟩) fuel = .ok res ∧
      res.rootLinks = [] ∧ res.chains = [] := by
  refine ⟨rfl, ?_⟩
  have hroots : root_links m = [] := by
    rw [root_links, List.filter_eq_nil_iff]
    intro li hli
    simp only [decide_eq_true_eq]
    intro hn
    rcases hall li (List.mem_range.mp hli) with ⟨ji, hji, hc, hp⟩
    exact hn (mem_child_links.mpr
      ⟨lk m li, lk_mem (List.mem_range.mp hli), rfl, jt m ji, jt_mem hji, hc.symm, hp⟩)
  have hseq : seqTrees ((root_links m).map fun li =>
      build m fuel li (world_joints m li)) = .ok [] := by
    rw [hroots]; rfl
  rcases parse_rest_ok_intro hf hseq with ⟨res, hres, hrl, hch⟩
  exact ⟨res, hres, by rw [hrl, hroots], hch⟩

/-- C3 counterexample: on the two-link loop `A ⇄ B` the shipped `parse`
raises an unstructured `NameError` — not a cyclic-kinematics error,
which nothing in the source can raise; the unreachable remainder would
not raise one either, returning an empty forest (silent truncation),
and `build` started inside the loop exhausts any recursion budget. -/
theorem c3_counterexample :
    parse (.decoded ⟨[mCycle]⟩) = .error .nameError ∧
    parse_rest (.decoded ⟨[mCycle]⟩) 100 = .ok ⟨"r", [0, 0, 0], [0, 0, 0], [], []⟩ ∧
    build mCycle 100 0 none = .error .outOfFuel :=
  ⟨rfl, rfl, (build_cycle_diverges 100 none).1⟩

/-- C3 witness: the loop `mCycle` satisfies the amended theorem's
hypotheses. -/
theorem c3_cycles_silently_truncated_witness :
    (fieldsOk mCycle ∧ ∀ li < mCycle.link.length, ∃ ji, ji < mCycle.joint.length ∧
      jchild (jt mCycle ji) = nm mCycle li ∧ jparent (jt mCycle ji) ≠ "world") ∧
    (parse (.decoded ⟨[mCycle]⟩) = .error .nameError ∧
      ∃ res, parse_rest (.decoded ⟨[mCycle]⟩) 5 = .ok res ∧
        res.rootLinks = [] ∧ res.chains = []) :=
  ⟨⟨by decide, by decide⟩, c3_cycles_silently_truncated mCycle 5 (by decide) (by decide)⟩

/-- C8 (amended): cross-reference resolution never raises a structured
error.  The shipped `parse` dies with `NameError` (unbound `logger`,
`sdf_tree.py:105`) before the cross-reference maps are even built; in
the unreachable resolution code, a joint whose child name matches no
link is simply absent from the joint→child mapping — the miss surfaces
as a bare `KeyError` when tree building reaches it — and duplicate link
names raise nothing either: the joint resolves to the *last* matching
link. -/
theorem c8_lookup_miss_amended :
    (∀ m : Model, parse (.decoded ⟨[m]⟩) = .error .nameError) ∧
    (∀ (m : Model) (ji : Nat),
      connected_links m ji = none ↔ ∀ li < m.link.length, nm m li ≠ jchild (jt m ji)) ∧
    (∀ (m : Model) (ji li : Nat), connected_links m ji = some li →
      li < m.link.length ∧ nm m li = jchild (jt m ji) ∧
      ∀ lj < m.link.length, nm m lj = jchild (jt m ji) → lj ≤ li) ∧
    (∀ (m : Model) (fuel li : Nat) (jo : Option Nat),
      connected_joints m li ≠ [] →
      (∀ jx ∈ connected_joints m li, connected_links m jx = none) →
      build m (fuel + 1) li jo = .error .keyError) := by
  refine ⟨fun m => rfl, fun m ji => connected_links_none,
    fun m ji li h => ⟨(connected_links_some h).1, (connected_links_some h).2,
      fun lj hlj hn => connected_links_last h hlj hn⟩, ?_⟩
  intro m fuel li jo hne hall
  cases hcj : connected_joints m li with
  | nil => exact absurd hcj hne
  | cons jx rest =>
    have hx : connected_links m jx = none := hall jx (hcj ▸ List.mem_cons_self _ _)
    simp only [build, hcj, List.map_cons, hx, seqTrees]

/-- C8 witness: the crash on the dangling-reference document, whose
unreachable resolution path reaches the bare `KeyError`. -/
theorem c8_lookup_miss_amended_witness :
    parse (.decoded ⟨[mDangling]⟩) = .error .nameError ∧
    connected_links mDangling 0 = none ∧ build mDangling 2 0 none = .error .keyError :=
  ⟨c8_lookup_miss_amended.1 mDangling,
   (c8_lookup_miss_amended.2.1 mDangling 0).mpr (by decide),
   c8_lookup_miss_amended.2.2.2 mDangling 1 0 none (by decide) (by decide)⟩

/-- C8 counterexample: neither structured error exists.  On the
dangling child `ghost` and on the duplicated link name `dup` alike, the
shipped `parse` aborts with an unstructured `NameError` before any
resolution; the unreachable resolution path surfaces the dangling miss
as a bare `KeyError`, and for the duplicate raises nothing — it
proceeds, resolving the joint to the *last* link named `dup` (index
2). -/
theorem c8_counterexample :
    parse (.decoded ⟨[mDangling]⟩) = .error .nameError ∧
    parse (.decoded ⟨[mDup]⟩) = .error .nameError ∧
    parse_rest (.decoded ⟨[mDangling]⟩) 3 = .error .keyError ∧
    parse_rest (.decoded ⟨[mDup]⟩) 3 =
      .ok ⟨"r", [0, 0, 0], [0, 0, 0], [0], [.mk 0 none [.mk 2 (some 0) []]]⟩ :=
  ⟨rfl, rfl, rfl, rfl⟩

/-- C4 (code evaluated at the failing input, and the intended round
trip): the shipped `parse` never yields a forest to compare — on the
world-anchored document (as on every one-model document) it raises
`NameError` at `sdf_tree.py:105`.  Rendering and decoding do round-trip
the document exactly, so on the re-decoded document `parse` crashes the
same way the original does, and the unreachable remainder of the
function returns the identical result — the identical forest — for
both. -/
theorem c4_round_trip (s : Sdf) (fuel : Nat) :
    parse (.decoded ⟨[mWorld]⟩) = .error .nameError ∧
    sdf_round_trip s = some s ∧
    ∀ s', sdf_round_trip s = some s' →
      parse (.decoded s') = parse (.decoded s) ∧
      parse_rest (.decoded s') fuel = parse_rest (.decoded s) fuel := by
  have h : decSdf (render s) = some (s, []) := by
    have h0 := decSdf_render s []
    rw [List.append_nil] at h0
    exact h0
  refine ⟨rfl, ?_, ?_⟩
  · rw [sdf_round_trip, h]
    rfl
  · intro s' hs'
    rw [sdf_round_trip, h] at hs'
    cases hs'
    exact ⟨rfl, rfl⟩

/-- C4 witness at a concrete document. -/
theorem c4_round_trip_witness :
    sdf_round_trip ⟨[mWorld]⟩ = some ⟨[mWorld]⟩ ∧
    parse (.decoded ⟨[mWorld]⟩) = parse (.decoded ⟨[mWorld]⟩) ∧
    parse_rest (.decoded ⟨[mWorld]⟩) 2 = parse_rest (.decoded ⟨[mWorld]⟩) 2 :=
  ⟨(c4_round_trip ⟨[mWorld]⟩ 2).2.1,
    (c4_round_trip ⟨[mWorld]⟩ 2).2.2 ⟨[mWorld]⟩ (c4_round_trip ⟨[mWorld]⟩ 2).2.1⟩

/-- Pointwise decomposition of a successful parse: the `k`-th chain is
built from the `k`-th classified root with its `world_joints` entry. -/
theorem parse_rest_chain_pointwise {m : Model} {fuel : Nat} {res : ParseResult}
    (h : parse_rest (.decoded ⟨[m]⟩) fuel = .ok res) :
    ∀ k (hk : k < res.rootLinks.length) (hk' : k < res.chains.length),
      res.rootLinks.get ⟨k, hk⟩ ∈ root_links m ∧
      build m fuel (res.rootLinks.get ⟨k, hk⟩)
          (world_joints m (res.rootLinks.get ⟨k, hk⟩)) =
        .ok (res.chains.get ⟨k, hk'⟩) := by
  rcases parse_rest_ok_elim h with ⟨hrl, hseq, _, _⟩
  intro k hk hk'
  have hk2 : k < (root_links m).length := by rw [← hrl]; exact hk
  rcases seqTrees_ok hseq with ⟨hlen, hpt⟩
  have hkm : k < ((root_links m).map fun li =>
      build m fuel li (world_joints m li)).length := by
    rw [List.length_map]; exact hk2
  have hb := hpt k hkm hk'
  simp only [List.get_eq_getElem, List.getElem_map] at hb
  have hre : res.rootLinks.get ⟨k, hk⟩ = (root_links m).get ⟨k, hk2⟩ :=
    List.get_of_eq hrl ⟨k, hk⟩
  rw [hre]
  exact ⟨List.get_mem _ _ _, hb⟩

/-- C1 (code evaluated at the failing input, and the intended
classification): the shipped `parse` raises `NameError` at
`sdf_tree.py:105` on the world-anchored document — as on every
one-model document — before classifying anything.  In the unreachable
remainder of the function, any successful result classifies a link as a
root iff no in-bounds joint has it as child with a non-`"world"`
parent, and the chain of each root carries, as its node's joint, a
world-parented joint with that root as child when one exists, and no
joint otherwise, exactly as the claim describes. -/
theorem c1_root_classification :
    parse (.decoded ⟨[mWorld]⟩) = .error .nameError ∧
    ∀ (m : Model) (fuel : Nat) (res : ParseResult),
      parse_rest (.decoded ⟨[m]⟩) fuel = .ok res →
    (∀ li, li ∈ res.rootLinks ↔ li < m.link.length ∧
      ¬∃ ji, ji < m.joint.length ∧ jchild (jt m ji) = nm m li ∧
        jparent (jt m ji) ≠ "world") ∧
    ∀ k (hk : k < res.rootLinks.length) (hk' : k < res.chains.length),
      (res.chains.get ⟨k, hk'⟩).link = res.rootLinks.get ⟨k, hk⟩ ∧
      ((∃ ji, ji < m.joint.length ∧
          jchild (jt m ji) = nm m (res.rootLinks.get ⟨k, hk⟩) ∧
          jparent (jt m ji) = "world") →
        ∃ ji, (res.chains.get ⟨k, hk'⟩).joint = some ji ∧ ji < m.joint.length ∧
          jchild (jt m ji) = nm m (res.rootLinks.get ⟨k, hk⟩) ∧
          jparent (jt m ji) = "world") ∧
      ((¬∃ ji, ji < m.joint.length ∧
          jchild (jt m ji) = nm m (res.rootLinks.get ⟨k, hk⟩) ∧
          jparent (jt m ji) = "world") →
        (res.chains.get ⟨k, hk'⟩).joint = none) := by
  refine ⟨rfl, ?_⟩
  intro m fuel res h
  have hrl := (parse_rest_ok_elim h).1
  refine ⟨fun li => by rw [hrl, mem_root_links], ?_⟩
  intro k hk hk'
  rcases parse_rest_chain_pointwise h k hk hk' with ⟨hmem, hb⟩
  rcases build_ok_shape hb with ⟨hlink, hjoint⟩
  rcases world_joints_spec hmem with ⟨hsome, hnone⟩
  refine ⟨hlink, ?_, ?_⟩
  · intro hex
    rcases hsome hex with ⟨ji, hw, hlt, hc, hp⟩
    exact ⟨ji, by rw [hjoint, hw], hlt, hc, hp⟩
  · intro hno
    rw [hjoint, hnone hno]

/-- C1 witness at the world-anchored one-link document. -/
theorem c1_root_classification_witness :
    (parse_rest (.decoded ⟨[mWorld]⟩) 2 = .ok resWorld) ∧
    (0 ∈ resWorld.rootLinks ↔ 0 < mWorld.link.length ∧
      ¬∃ ji, ji < mWorld.joint.length ∧ jchild (jt mWorld ji) = nm mWorld 0 ∧
        jparent (jt mWorld ji) ≠ "world") ∧
    ∃ ji, (resWorld.chains.headD (.mk 9 none [])).joint = some ji ∧
      ji < mWorld.joint.length ∧ jchild (jt mWorld ji) = nm mWorld 0 ∧
      jparent (jt mWorld ji) = "world" := by
  have h := c1_root_classification.2 mWorld 2 resWorld rfl
  refine ⟨rfl, h.1 0, ?_⟩
  have h2 := (h.2 0 (by decide) (by decide)).2.1 (by decide)
  exact h2

/-- C7 counterexample: applying `set_defaults` to a link whose inertial
block already has mass `2.5` does *not* leave the mass field unchanged —
the default `1.0` is appended unconditionally, leaving a two-entry mass
element. -/
theorem c7_counterexample :
    ((set_defaults ⟨"j", [], [], []⟩ ⟨"base", [⟨["2.5"], [], []⟩]⟩).2.inertial.map
      fun i => i.mass) = [["2.5", "1.0"]] ∧
    ((set_defaults ⟨"j", [], [], []⟩ ⟨"base", [⟨["2.5"], [], []⟩]⟩).2.inertial.map
      fun i => i.mass) ≠ [["2.5"]] := ⟨rfl, by decide⟩

/-- C7 (amended): `set_defaults` synthesizes a missing joint axis (an
existing axis is kept), a missing inertial block and a missing inertia
block, but it *appends* the default mass, pose and inertia entries to
the first inertial block unconditionally — an already-populated
sub-field keeps its old entries and gains the default after them — and
it unconditionally resets the joint's parent and child elements. -/
theorem c7_default_policy_amended (j : Joint) (l : Link) :
    (set_defaults j l).1.parent = [] ∧
    (set_defaults j l).1.child = [] ∧
    (set_defaults j l).1.axis = (if j.axis.isEmpty then [()] else j.axis) ∧
    (set_defaults j l).2.inertial.tail = l.inertial.tail ∧
    ∃ i, (set_defaults j l).2.inertial.head? = some i ∧
      i.mass = (l.inertial.headD ⟨[], [], []⟩).mass ++ ["1.0"] ∧
      i.pose = (l.inertial.headD ⟨[], [], []⟩).pose ++ ["0 0 0 0 0 0"] ∧
      i.inertia.tail = (l.inertial.headD ⟨[], [], []⟩).inertia.tail ∧
      ∃ t, i.inertia.head? = some t ∧
        t = ⟨((l.inertial.headD ⟨[], [], []⟩).inertia.headD
                ⟨[], [], [], [], [], []⟩).ixx ++ [1],
             ((l.inertial.headD ⟨[], [], []⟩).inertia.headD
                ⟨[], [], [], [], [], []⟩).iyy ++ [1],
             ((l.inertial.headD ⟨[], [], []⟩).inertia.headD
                ⟨[], [], [], [], [], []⟩).izz ++ [1],
             ((l.inertial.headD ⟨[], [], []⟩).inertia.headD
                ⟨[], [], [], [], [], []⟩).ixy ++ [0],
             ((l.inertial.headD ⟨[], [], []⟩).inertia.headD
                ⟨[], [], [], [], [], []⟩).ixz ++ [0],
             ((l.inertial.headD ⟨[], [], []⟩).inertia.headD
                ⟨[], [], [], [], [], []⟩).iyz ++ [0]⟩ := by
  obtain ⟨jn, jp, jc, ja⟩ := j
  obtain ⟨ln, li⟩ := l
  cases ja with
  | nil =>
    cases li with
    | nil => exact ⟨rfl, rfl, rfl, rfl, _, rfl, rfl, rfl, rfl, _, rfl, rfl⟩
    | cons i0 rest =>
      obtain ⟨ms, ps, ia⟩ := i0
      cases ia with
      | nil => exact ⟨rfl, rfl, rfl, rfl, _, rfl, rfl, rfl, rfl, _, rfl, rfl⟩
      | cons t0 trest => exact ⟨rfl, rfl, rfl, rfl, _, rfl, rfl, rfl, rfl, _, rfl, rfl⟩
  | cons a as =>
    cases li with
    | nil => exact ⟨rfl, rfl, rfl, rfl, _, rfl, rfl, rfl, rfl, _, rfl, rfl⟩
    | cons i0 rest =>
      obtain ⟨ms, ps, ia⟩ := i0
      cases ia with
      | nil => exact ⟨rfl, rfl, rfl, rfl, _, rfl, rfl, rfl, rfl, _, rfl, rfl⟩
      | cons t0 trest => exact ⟨rfl, rfl, rfl, rfl, _, rfl, rfl, rfl, rfl, _, rfl, rfl⟩

/-- C2 (amended): the shipped `parse` returns no forest at all — every
one-model document crashes with `NameError` (unbound `logger`,
`sdf_tree.py:105`).  For the unreachable forest construction below the
crash point: given unique link names, none named `"world"`, every child
reference and every non-world parent reference resolving to a link,
each link the child of at most one non-world joint, and an acyclic step
relation (witnessed by a topological rank), it succeeds with one chain
per classified root and every link of the document appearing in exactly
one tree node of the forest (without the one-parent condition a shared
child is duplicated, see the counterexample). -/
theorem c2_forest_amended (m : Model) (rank : Nat → Nat) (fuel : Nat)
    (uniq : uniqueNames m) (cres : childResolves m) (pres : parentResolves m)
    (nw : noWorldLink m) (op : oneParent m) (hf : fieldsOk m)
    (hr : topoRank m rank) (hfuel : m.link.length ≤ fuel) :
    parse (.decoded ⟨[m]⟩) = .error .nameError ∧
    ∃ res, parse_rest (.decoded ⟨[m]⟩) fuel = .ok res ∧
      res.chains.length = res.rootLinks.length ∧
      ∀ lj, lj < m.link.length → cntL lj res.chains = 1 := by
  refine ⟨rfl, ?_⟩
  rcases forest_count uniq cres pres nw op hr fuel hfuel with ⟨ts, hts, hlen, hcnt⟩
  rcases parse_rest_ok_intro hf hts with ⟨res, hres, hrl, hch⟩
  refine ⟨res, hres, by rw [hch, hrl, hlen], fun lj hlj => ?_⟩
  rw [hch]
  exact hcnt lj hlj

/-- C2 counterexample: `mShared` is acyclic (topologically ranked by
`rankShared`), has unique link names and a well-formed document
invariant, yet the shipped `parse` returns no forest — it raises
`NameError` — and even the unreachable forest construction puts link 2
(`c`, the child of joints under both `a` and `b`) in *two* tree nodes:
no link appears in exactly one node of any forest returned by parse. -/
theorem c2_counterexample :
    uniqueNames mShared ∧ topoRank mShared rankShared ∧ childResolves mShared ∧
    parentResolves mShared ∧ fieldsOk mShared ∧
    parse (.decoded ⟨[mShared]⟩) = .error .nameError ∧
    parse_rest (.decoded ⟨[mShared]⟩) 4 = .ok resShared ∧
    cntL 2 resShared.chains = 2 :=
  ⟨by decide, ⟨by decide, by decide⟩, by decide, by decide, by decide, rfl, rfl, rfl⟩

/-- C2 witness: the amended theorem applied to the one-link document. -/
theorem c2_forest_amended_witness :
    (uniqueNames mOne ∧ childResolves mOne ∧ parentResolves mOne ∧ noWorldLink mOne ∧
      oneParent mOne ∧ fieldsOk mOne ∧ topoRank mOne (fun _ => 0) ∧
      mOne.link.length ≤ 1) ∧
    (parse (.decoded ⟨[mOne]⟩) = .error .nameError ∧
      ∃ res, parse_rest (.decoded ⟨[mOne]⟩) 1 = .ok res ∧
        res.chains.length = res.rootLinks.length ∧
        ∀ lj, lj < mOne.link.length → cntL lj res.chains = 1) :=
  ⟨⟨by decide, by decide, by decide, by decide, by decide, by decide,
      ⟨by decide, by decide⟩, by decide⟩,
    c2_forest_amended mOne (fun _ => 0) 1 (by decide) (by decide) (by decide) (by decide)
      (by decide) (by decide) ⟨by decide, by decide⟩ (by decide)⟩
